import Mathlib

/-!
Verification of the batch-ingestion and dispatch service in `main.py`.

The Python program is shallowly embedded: the pure computations of the
service (input validation, chunking into work units, status aggregation,
queue ordering) become Lean functions with the same names, and the shared
mutable state (`ingestion_store`, `batch_queue`, the dispatcher loop) becomes
an explicit state type with a small-step transition relation whose steps are
exactly the atomic blocks of the Python code (the event loop never preempts
code between `await` points).
-/

namespace LoopAI

/-- The `Priority` enum of main.py. -/
inductive Priority where
  | HIGH
  | MEDIUM
  | LOW
deriving DecidableEq

/-- The `priority_map` dict of main.py: HIGH ↦ 1, MEDIUM ↦ 2, LOW ↦ 3. -/
def priority_map : Priority → ℕ
  | .HIGH => 1
  | .MEDIUM => 2
  | .LOW => 3

/-- The `BatchStatus` enum of main.py. -/
inductive BatchStatus where
  | yet_to_start
  | triggered
  | completed
deriving DecidableEq

/-- `BATCH_SIZE` constant (main.py line 50). -/
def BATCH_SIZE : ℕ := 3

/-- `RATE_LIMIT_SECONDS` constant (main.py line 51). -/
def RATE_LIMIT_SECONDS : ℕ := 5

/-- `PROCESS_DELAY` constant (main.py line 52). -/
def PROCESS_DELAY : ℕ := 2

/-- Upper bound of the accepted identifier range, `10**9 + 7` (main.py line 28). -/
def MAX_ID : ℤ := 10 ^ 9 + 7

/-- The two `ValueError` sites of `IngestRequest.validate_ids` (main.py lines 23-30). -/
inductive ValidationError where
  | emptyIds
  | outOfRange (id : ℤ)
deriving DecidableEq

/-- `IngestRequest.validate_ids` (main.py lines 23-30): reject an empty list,
then scan the list in order and reject at the first identifier outside
`[1, 10**9 + 7]`; otherwise return the list unchanged. -/
def validate_ids (v : List ℤ) : Except ValidationError (List ℤ) :=
  if v.isEmpty then .error .emptyIds
  else
    match v.find? (fun i => !(decide (1 ≤ i) && decide (i ≤ MAX_ID))) with
    | some i => .error (.outOfRange i)
    | none => .ok v

/-- The chunking loop of `ingest` (main.py lines 63-64): the slices
`ids[i:i+BATCH_SIZE]` for `i = 0, BATCH_SIZE, 2*BATCH_SIZE, ...`, with
`BATCH_SIZE = 3`, written as structural recursion taking three elements
at a time. -/
def makeBatches : List ℤ → List (List ℤ)
  | [] => []
  | [a] => [[a]]
  | [a, b] => [[a, b]]
  | a :: b :: c :: rest => [a, b, c] :: makeBatches rest

theorem makeBatches_flatten : ∀ l : List ℤ, (makeBatches l).flatten = l
  | [] => rfl
  | [_] => rfl
  | [_, _] => rfl
  | a :: b :: c :: rest => by
      simp [makeBatches, makeBatches_flatten rest]

theorem makeBatches_chunk_size :
    ∀ l : List ℤ, ∀ c ∈ makeBatches l, c ≠ [] ∧ c.length ≤ BATCH_SIZE
  | [], c, hc => by simp [makeBatches] at hc
  | [a], c, hc => by
      simp [makeBatches] at hc
      subst hc; exact ⟨by simp, by simp [BATCH_SIZE]⟩
  | [a, b], c, hc => by
      simp [makeBatches] at hc
      subst hc; exact ⟨by simp, by simp [BATCH_SIZE]⟩
  | a :: b :: c :: rest, d, hd => by
      simp only [makeBatches, List.mem_cons] at hd
      rcases hd with h | h
      · subst h; exact ⟨by simp, by simp [BATCH_SIZE]⟩
      · exact makeBatches_chunk_size rest d h

theorem makeBatches_eq_nil_iff : ∀ l : List ℤ, makeBatches l = [] ↔ l = []
  | [] => by simp [makeBatches]
  | [_] => by simp [makeBatches]
  | [_, _] => by simp [makeBatches]
  | _ :: _ :: _ :: _ => by simp [makeBatches]

theorem makeBatches_dropLast_full :
    ∀ l : List ℤ, ∀ c ∈ (makeBatches l).dropLast, c.length = BATCH_SIZE
  | [], c, hc => by simp [makeBatches] at hc
  | [_], c, hc => by simp [makeBatches] at hc
  | [_, _], c, hc => by simp [makeBatches] at hc
  | a :: b :: c :: rest, d, hd => by
      by_cases hrest : rest = []
      · subst hrest; simp [makeBatches] at hd
      · have hne : makeBatches rest ≠ [] := by
          simpa [makeBatches_eq_nil_iff] using hrest
        rw [makeBatches] at hd
        rw [List.dropLast_cons_of_ne_nil hne] at hd
        rcases List.mem_cons.mp hd with h | h
        · subst h; simp [BATCH_SIZE]
        · exact makeBatches_dropLast_full rest d h

/-- C1: every valid submission is partitioned into contiguous, order-preserving
chunks of at most `BATCH_SIZE = 3` identifiers whose concatenation in unit
order is exactly the submitted sequence, with only the last chunk possibly
smaller than the batch size. -/
theorem ingest_partitions_ids (l : List ℤ) :
    (makeBatches l).flatten = l ∧
    (∀ c ∈ makeBatches l, c ≠ [] ∧ c.length ≤ BATCH_SIZE) ∧
    (∀ c ∈ (makeBatches l).dropLast, c.length = BATCH_SIZE) :=
  ⟨makeBatches_flatten l, makeBatches_chunk_size l, makeBatches_dropLast_full l⟩

/-- C1 witness: the spec scenario, identifiers `[1,...,7]` split into
`[1,2,3], [4,5,6], [7]`, and the partition property at that input. -/
theorem ingest_partitions_ids_witness :
    makeBatches [1, 2, 3, 4, 5, 6, 7] = [[1, 2, 3], [4, 5, 6], [7]] ∧
    (makeBatches [1, 2, 3, 4, 5, 6, 7]).flatten = [1, 2, 3, 4, 5, 6, 7] ∧
    (∀ c ∈ (makeBatches [1, 2, 3, 4, 5, 6, 7]).dropLast, c.length = BATCH_SIZE) :=
  ⟨rfl, (ingest_partitions_ids _).1, (ingest_partitions_ids _).2.2⟩

/-- The `batch_info` dict built in `ingest` (main.py lines 66-73), with the
same fields in the same order. UUIDs are modelled as numbers supplied by the
caller of the operation; times are natural numbers. -/
structure BatchInfo where
  batch_id : ℕ
  ids : List ℤ
  status : BatchStatus
  ingestion_id : ℕ
  created_time : ℕ
  priority : Priority
deriving DecidableEq

/-- The per-ingestion record stored in `ingestion_store` (main.py lines 79-82):
a stored `status` field (written once, at creation) and the list of batches. -/
structure Submission where
  status : BatchStatus
  batches : List BatchInfo
deriving DecidableEq

/-- One element of `batch_queue` (main.py line 77): the tuple
`(priority_map[priority], created_time, batch_info)`. The queue entry shares
the batch object with the store, so here it carries the keys used for
ordering plus the identifiers needed to locate the shared batch. -/
structure QueueEntry where
  rank : ℕ
  created_time : ℕ
  ingestion_id : ℕ
  batch_id : ℕ
deriving DecidableEq

/-- The shared in-memory state of the service: `ingestion_store` (a dict,
modelled as an association list with unique keys) and `batch_queue`. -/
structure SysState where
  ingestion_store : List (ℕ × Submission)
  batch_queue : List QueueEntry
deriving DecidableEq

/-- The batch loop body of `ingest` (main.py lines 63-74): one `batch_info`
per chunk, each with a freshly generated `batch_id` (one supplied id per
chunk), status `YET_TO_START`, and the submission's ingestion id, creation
time, and priority. -/
def mkBatchInfos : List (List ℤ) → List ℕ → ℕ → ℕ → Priority → List BatchInfo
  | c :: cs, bid :: bs, iid, t, p =>
      ⟨bid, c, .yet_to_start, iid, t, p⟩ :: mkBatchInfos cs bs iid t p
  | _, _, _, _, _ => []

/-- The queue appends of `ingest` (main.py lines 76-77): one entry
`(priority_map[priority], created_time, batch_info)` per batch, in batch
order. -/
def mkEntries (batches : List BatchInfo) : List QueueEntry :=
  batches.map (fun b => ⟨priority_map b.priority, b.created_time, b.ingestion_id, b.batch_id⟩)

/-- The `ingest` endpoint (main.py lines 54-86). The fresh ingestion id, the
fresh batch ids and the creation time are parameters (they come from
`uuid.uuid4()` and `time.time()`). A validation failure is surfaced as a
client-fault error with HTTP status 400 (the handler's catch-all,
main.py line 86) and the state is returned unchanged. -/
def ingest (st : SysState) (ids : List ℤ) (p : Priority) (iid : ℕ)
    (bids : List ℕ) (t : ℕ) : SysState × Except (ℕ × ValidationError) ℕ :=
  match validate_ids ids with
  | .error e => (st, .error (400, e))
  | .ok v =>
      let batches := mkBatchInfos (makeBatches v) bids iid t p
      ({ ingestion_store := st.ingestion_store ++ [(iid, ⟨.yet_to_start, batches⟩)],
         batch_queue := st.batch_queue ++ mkEntries batches },
       .ok iid)

/-- The aggregation rule of the `status` endpoint (main.py lines 97-102):
all `YET_TO_START` → `YET_TO_START`; else all `COMPLETED` → `COMPLETED`;
else `TRIGGERED`. -/
def overallStatus (sts : List BatchStatus) : BatchStatus :=
  if sts.all (· == .yet_to_start) then .yet_to_start
  else if sts.all (· == .completed) then .completed
  else .triggered

/-- One row of the `batches` array in the status response (main.py line 108). -/
structure BatchView where
  batch_id : ℕ
  ids : List ℤ
  status : BatchStatus
deriving DecidableEq

/-- The body of the status response (main.py lines 104-111). -/
structure StatusResponse where
  ingestion_id : ℕ
  status : BatchStatus
  batches : List BatchView
deriving DecidableEq

/-- The response construction of the `status` endpoint for a stored
submission (main.py lines 94-111): the aggregate is recomputed from the
batches' current states; the stored `status` field of the submission is not
consulted. -/
def statusOfSubmission (iid : ℕ) (sub : Submission) : StatusResponse :=
  { ingestion_id := iid,
    status := overallStatus (sub.batches.map (·.status)),
    batches := sub.batches.map (fun b => ⟨b.batch_id, b.ids, b.status⟩) }

/-- The `status` endpoint (main.py lines 88-113): a read-only handler that
returns 404 for an unknown ingestion id and otherwise the response built by
`statusOfSubmission`. It returns the (unchanged) server state alongside the
HTTP result. -/
def status (st : SysState) (iid : ℕ) :
    SysState × Except (ℕ × String) StatusResponse :=
  match st.ingestion_store.lookup iid with
  | none => (st, .error (404, "Ingestion ID not found"))
  | some sub => (st, .ok (statusOfSubmission iid sub))

/-- The three-way aggregation contract of C2, plus independence from the
stored per-submission `status` field (no caching). -/
def AggSpec (sts : List BatchStatus) : Prop :=
  (overallStatus sts = .yet_to_start ↔ ∀ s ∈ sts, s = .yet_to_start) ∧
  (overallStatus sts = .completed ↔ ∀ s ∈ sts, s = .completed) ∧
  (overallStatus sts = .triggered ↔
    ¬(∀ s ∈ sts, s = .yet_to_start) ∧ ¬(∀ s ∈ sts, s = .completed)) ∧
  (∀ iid s₁ s₂ bs, statusOfSubmission iid ⟨s₁, bs⟩ = statusOfSubmission iid ⟨s₂, bs⟩)

/-- C2: for a known submission (whose unit list is nonempty), the aggregate
status is `yet_to_start` iff every unit is pending, `completed` iff every
unit is completed, and `triggered` in every other case; and the aggregate is
recomputed from the units' current states on every call (the stored
submission-level status field is ignored). -/
theorem status_aggregation_rule (sts : List BatchStatus) (h : sts ≠ []) :
    AggSpec sts := by
  have hyet : (sts.all (· == BatchStatus.yet_to_start) = true) ↔
      ∀ s ∈ sts, s = BatchStatus.yet_to_start := by
    simp [List.all_eq_true]
  have hcompl : (sts.all (· == BatchStatus.completed) = true) ↔
      ∀ s ∈ sts, s = BatchStatus.completed := by
    simp [List.all_eq_true]
  have hnotboth : ¬((∀ s ∈ sts, s = BatchStatus.yet_to_start) ∧
      ∀ s ∈ sts, s = BatchStatus.completed) := by
    rintro ⟨h1, h2⟩
    cases sts with
    | nil => exact h rfl
    | cons a l =>
        have e1 := h1 a (by simp)
        have e2 := h2 a (by simp)
        rw [e1] at e2
        exact BatchStatus.noConfusion e2
  by_cases h1 : ∀ s ∈ sts, s = BatchStatus.yet_to_start
  · have hov : overallStatus sts = .yet_to_start := by
      unfold overallStatus
      rw [if_pos (hyet.mpr h1)]
    exact ⟨⟨fun _ => h1, fun _ => hov⟩,
      ⟨fun hc => BatchStatus.noConfusion (hov.symm.trans hc),
       fun hc => absurd ⟨h1, hc⟩ hnotboth⟩,
      ⟨fun hc => BatchStatus.noConfusion (hov.symm.trans hc),
       fun hc => absurd h1 hc.1⟩,
      fun iid s₁ s₂ bs => rfl⟩
  · by_cases h2 : ∀ s ∈ sts, s = BatchStatus.completed
    · have hov : overallStatus sts = .completed := by
        unfold overallStatus
        rw [if_neg (fun hc => h1 (hyet.mp hc)), if_pos (hcompl.mpr h2)]
      exact ⟨⟨fun hc => BatchStatus.noConfusion (hov.symm.trans hc),
         fun hc => absurd hc h1⟩,
        ⟨fun _ => h2, fun _ => hov⟩,
        ⟨fun hc => BatchStatus.noConfusion (hov.symm.trans hc),
         fun hc => absurd h2 hc.2⟩,
        fun iid s₁ s₂ bs => rfl⟩
    · have hov : overallStatus sts = .triggered := by
        unfold overallStatus
        rw [if_neg (fun hc => h1 (hyet.mp hc)), if_neg (fun hc => h2 (hcompl.mp hc))]
      exact ⟨⟨fun hc => BatchStatus.noConfusion (hov.symm.trans hc),
         fun hc => absurd hc h1⟩,
        ⟨fun hc => BatchStatus.noConfusion (hov.symm.trans hc),
         fun hc => absurd hc h2⟩,
        ⟨fun _ => ⟨h1, h2⟩, fun _ => hov⟩,
        fun iid s₁ s₂ bs => rfl⟩

/-- C2 witness: the aggregation contract at the concrete state list
`[triggered, completed]`. -/
theorem status_aggregation_rule_witness :
    AggSpec [BatchStatus.triggered, BatchStatus.completed] :=
  status_aggregation_rule _ (by simp)

/-- The list scan of `validate_ids`, read off a non-firing element: an
identifier the scan does not flag is in range. -/
theorem inRange_of_pred_ne_true {i : ℤ}
    (h : ¬((!(decide (1 ≤ i) && decide (i ≤ MAX_ID))) = true)) :
    1 ≤ i ∧ i ≤ MAX_ID := by
  have hx : (decide (1 ≤ i) && decide (i ≤ MAX_ID)) = true := by
    cases hx : (decide (1 ≤ i) && decide (i ≤ MAX_ID)) with
    | true => rfl
    | false => exact absurd (by rw [hx]; rfl) h
  simpa [Bool.and_eq_true, decide_eq_true_eq] using hx

/-- The list scan of `validate_ids` does not flag an in-range identifier. -/
theorem pred_false_of_inRange {i : ℤ} (h1 : 1 ≤ i) (h2 : i ≤ MAX_ID) :
    (!(decide (1 ≤ i) && decide (i ≤ MAX_ID))) = false := by
  simp [h1, h2]

/-- C6: an empty identifier list, or any identifier outside `[1, 10^9+7]`,
is rejected by `ingest` with a client-fault HTTP 400 error, and the
submission store and the dispatch queue are left unchanged (the returned
state is the input state). -/
theorem ingest_rejects_client_fault (st : SysState) (ids : List ℤ)
    (p : Priority) (iid : ℕ) (bids : List ℕ) (t : ℕ)
    (h : ids = [] ∨ ∃ i ∈ ids, i < 1 ∨ MAX_ID < i) :
    ∃ e, ingest st ids p iid bids t = (st, .error (400, e)) := by
  have hval : ∃ e, validate_ids ids = .error e := by
    rcases h with rfl | ⟨i, hi, hrange⟩
    · exact ⟨.emptyIds, rfl⟩
    · have hne : ids.isEmpty = false := by
        cases ids with
        | nil => simp at hi
        | cons a l => rfl
      cases hfind : ids.find? (fun j => !(decide (1 ≤ j) && decide (j ≤ MAX_ID))) with
      | none =>
          exfalso
          have hin := inRange_of_pred_ne_true (List.find?_eq_none.mp hfind i hi)
          rcases hrange with hlt | hlt
          · exact absurd hin.1 (not_le.mpr hlt)
          · exact absurd hin.2 (not_le.mpr hlt)
      | some j =>
          refine ⟨.outOfRange j, ?_⟩
          unfold validate_ids
          rw [hne, if_neg Bool.false_ne_true, hfind]
  obtain ⟨e, he⟩ := hval
  refine ⟨e, ?_⟩
  unfold ingest
  rw [he]

/-- C6 witness: the two spec scenarios, an empty list and the out-of-range
identifier `10^9 + 8`, each rejected with HTTP 400 on the empty state. -/
theorem ingest_rejects_client_fault_witness :
    (∃ e, ingest ⟨[], []⟩ [] .HIGH 0 [] 0 = (⟨[], []⟩, .error (400, e))) ∧
    (∃ e, ingest ⟨[], []⟩ [10 ^ 9 + 8] .HIGH 0 [1] 0 = (⟨[], []⟩, .error (400, e))) :=
  ⟨ingest_rejects_client_fault _ _ _ _ _ _ (Or.inl rfl),
   ingest_rejects_client_fault _ _ _ _ _ _
     (Or.inr ⟨10 ^ 9 + 8, by simp, Or.inr (by norm_num [MAX_ID])⟩)⟩

/-- The contract of the `status` endpoint for C7. -/
def StatusContract (st : SysState) (iid : ℕ) : Prop :=
  (status st iid).1 = st ∧
  (st.ingestion_store.lookup iid = none →
    (status st iid).2 = .error (404, "Ingestion ID not found")) ∧
  (∀ sub, st.ingestion_store.lookup iid = some sub →
    (status st iid).2 = .ok
      { ingestion_id := iid,
        status := overallStatus (sub.batches.map (·.status)),
        batches := sub.batches.map (fun b => ⟨b.batch_id, b.ids, b.status⟩) })

/-- C7: the status operation never mutates the state; an unknown submission
identifier yields a 404 not-found fault; a known identifier yields the
submission identifier, the freshly computed aggregate status, and the
ordered per-unit detail (unit id, contained identifiers, unit state). -/
theorem status_endpoint_contract (st : SysState) (iid : ℕ) :
    StatusContract st iid := by
  refine ⟨?_, ?_, ?_⟩
  · unfold status
    cases st.ingestion_store.lookup iid <;> rfl
  · intro h; simp [status, h]
  · intro sub h; simp [status, h, statusOfSubmission]

/-- C7 witness: the contract at a concrete one-submission store, for the
unknown id 99 (404) and the known id 7. -/
theorem status_endpoint_contract_witness :
    StatusContract ⟨[(7, ⟨.yet_to_start, [⟨10, [1], .yet_to_start, 7, 0, .HIGH⟩]⟩)], []⟩ 99 ∧
    (status ⟨[(7, ⟨.yet_to_start, [⟨10, [1], .yet_to_start, 7, 0, .HIGH⟩]⟩)], []⟩ 7).2 =
      .ok ⟨7, .yet_to_start, [⟨10, [1], .yet_to_start⟩]⟩ :=
  ⟨status_endpoint_contract _ 99,
   (status_endpoint_contract _ 7).2.2
     ⟨.yet_to_start, [⟨10, [1], .yet_to_start, 7, 0, .HIGH⟩]⟩ rfl⟩

/-- C9: intake validation checks only non-emptiness and the numeric range of
each identifier — `validate_ids` succeeds (returning the list unchanged)
exactly when the list is nonempty and every identifier is in range — so a
list with duplicate identifiers is accepted, and chunking preserves every
occurrence (the units' concatenation is the submitted list itself). -/
theorem duplicate_ids_accepted (ids : List ℤ) :
    (validate_ids ids = .ok ids ↔ ids ≠ [] ∧ ∀ i ∈ ids, 1 ≤ i ∧ i ≤ MAX_ID) ∧
    (makeBatches ids).flatten = ids := by
  refine ⟨?_, makeBatches_flatten ids⟩
  constructor
  · intro h
    by_cases hemp : ids.isEmpty
    · rw [validate_ids, if_pos hemp] at h
      exact absurd h (by simp)
    · refine ⟨by simpa [List.isEmpty_iff] using hemp, ?_⟩
      intro i hi
      cases hfind : ids.find? (fun j => !(decide (1 ≤ j) && decide (j ≤ MAX_ID))) with
      | none => exact inRange_of_pred_ne_true (List.find?_eq_none.mp hfind i hi)
      | some j =>
          rw [validate_ids, if_neg hemp, hfind] at h
          exact absurd h (by simp)
  · rintro ⟨hne, hrange⟩
    have hemp : ids.isEmpty = false := by
      cases ids with
      | nil => exact absurd rfl hne
      | cons a l => rfl
    have hfind : ids.find? (fun j => !(decide (1 ≤ j) && decide (j ≤ MAX_ID))) = none := by
      rw [List.find?_eq_none]
      intro i hi
      rw [pred_false_of_inRange (hrange i hi).1 (hrange i hi).2]
      exact Bool.false_ne_true
    rw [validate_ids, hemp, if_neg Bool.false_ne_true, hfind]

/-- C9 witness: the all-duplicates list `[5,5,5,5]` passes validation and its
four occurrences are preserved across the two chunks `[5,5,5]` and `[5]`. -/
theorem duplicate_ids_accepted_witness :
    validate_ids [5, 5, 5, 5] = .ok [5, 5, 5, 5] ∧
    makeBatches [5, 5, 5, 5] = [[5, 5, 5], [5]] ∧
    (makeBatches [5, 5, 5, 5]).flatten = [5, 5, 5, 5] :=
  ⟨(duplicate_ids_accepted [5, 5, 5, 5]).1.mpr
      ⟨by simp, by intro i hi; simp at hi; subst hi; constructor <;> norm_num [MAX_ID]⟩,
   rfl,
   (duplicate_ids_accepted [5, 5, 5, 5]).2⟩

/-- The moment a dispatch cycle proceeds past the rate-limit wait
(main.py lines 119-121): entering the loop at time `now` with reference
point `last`, the code sleeps until `last + RATE_LIMIT_SECONDS` when less
than the interval has elapsed, and proceeds immediately otherwise. -/
def dispatchStart (last now : ℕ) : ℕ :=
  if now < last + RATE_LIMIT_SECONDS then last + RATE_LIMIT_SECONDS else now

/-- The reference point recorded at the end of a successful cycle
(main.py line 155, `last_processed = time.time()`): the downstream
processing sleep of `PROCESS_DELAY` seconds has run since the dispatch
started, so the recorded time is the cycle's start plus the processing
delay — not the cycle's start time. -/
def recordedReference (start : ℕ) : ℕ := start + PROCESS_DELAY

/-- C3 counterexample: the reference point recorded at the end of a cycle
that started dispatching at time 0 is `PROCESS_DELAY = 2`, not the cycle's
start time 0 — the code records the end-of-processing time, not the cycle's
start time. -/
theorem recorded_reference_not_cycle_start : recordedReference 0 ≠ 0 := by decide

/-- C3 (amended): the dispatcher records the end-of-processing time
(cycle start plus `PROCESS_DELAY`) as the reference point, and consequently
two consecutive dispatch cycles still begin at least `RATE_LIMIT_SECONDS`
apart, whatever the times at which the loop re-enters. -/
theorem rate_limit_interval_holds (last now now₂ : ℕ) :
    dispatchStart last now + RATE_LIMIT_SECONDS ≤
      dispatchStart (recordedReference (dispatchStart last now)) now₂ := by
  unfold dispatchStart recordedReference RATE_LIMIT_SECONDS PROCESS_DELAY
  split <;> split <;> omega

/-- The sort key comparison used by the dispatcher (main.py line 128):
Python's `sorted(..., key=lambda x: (x[0], x[1]))` orders entries
lexicographically by (priority rank, creation timestamp). -/
def keyLe (a b : QueueEntry) : Bool :=
  decide (a.rank < b.rank ∨ (a.rank = b.rank ∧ a.created_time ≤ b.created_time))

theorem keyLe_trans : ∀ a b c : QueueEntry,
    keyLe a b = true → keyLe b c = true → keyLe a c = true := by
  intro a b c hab hbc
  simp only [keyLe, decide_eq_true_eq] at *
  omega

theorem keyLe_total : ∀ a b : QueueEntry, (keyLe a b || keyLe b a) = true := by
  intro a b
  simp only [keyLe, Bool.or_eq_true, decide_eq_true_eq]
  omega

/-- The dispatcher's re-sort of the queue (main.py line 128):
`sorted(list(batch_queue), key=lambda x: (x[0], x[1]))`. Python's `sorted`
is a stable sort; it is modelled by the (stable) `List.mergeSort`. -/
def sortQueue (q : List QueueEntry) : List QueueEntry :=
  q.mergeSort keyLe

/-- One dequeue of the dispatcher (main.py lines 127-132): the queue is
re-sorted in place and the front entry is popped; returns the popped entry
and the remaining queue, or `none` on an empty queue. -/
def dequeue_next (q : List QueueEntry) : Option (QueueEntry × List QueueEntry) :=
  match sortQueue q with
  | [] => none
  | e :: rest => some (e, rest)

/-- Repeated dequeuing until the queue is empty (no intervening arrivals),
the order in which the dispatcher drains a fixed queue content. -/
def drainFuel : ℕ → List QueueEntry → List QueueEntry
  | 0, _ => []
  | fuel + 1, q =>
      match dequeue_next q with
      | none => []
      | some (e, rest) => e :: drainFuel fuel rest

/-- The drain order of a queue: `q.length` successive dequeues. -/
def drain (q : List QueueEntry) : List QueueEntry :=
  drainFuel q.length q

theorem sortQueue_sorted (q : List QueueEntry) :
    (sortQueue q).Pairwise (fun a b => keyLe a b = true) :=
  List.sorted_mergeSort keyLe_trans keyLe_total q

theorem sortQueue_perm (q : List QueueEntry) : (sortQueue q).Perm q :=
  List.mergeSort_perm q keyLe

theorem drainFuel_of_sorted :
    ∀ (n : ℕ) (q : List QueueEntry),
      q.Pairwise (fun a b => keyLe a b = true) → drainFuel n q = q.take n
  | 0, _, _ => by simp [drainFuel]
  | n + 1, [], _ => by
      simp [drainFuel, dequeue_next, sortQueue, List.mergeSort_nil]
  | n + 1, e :: rest, h => by
      have hsorted : sortQueue (e :: rest) = e :: rest :=
        List.mergeSort_of_sorted h
      have htail : rest.Pairwise (fun a b => keyLe a b = true) :=
        (List.pairwise_cons.mp h).2
      simp only [drainFuel, dequeue_next, hsorted, List.take_succ_cons]
      rw [drainFuel_of_sorted n rest htail]

theorem drain_eq_sortQueue (q : List QueueEntry) : drain q = sortQueue q := by
  unfold drain
  cases hq : sortQueue q with
  | nil =>
      have hp : q.Perm [] := by
        rw [← hq]
        exact (sortQueue_perm q).symm
      have : q = [] := List.Perm.eq_nil hp
      subst this
      simp [drainFuel]
  | cons e rest =>
      have hlen : q.length = rest.length + 1 := by
        have := (sortQueue_perm q).length_eq
        rw [hq] at this
        simpa using this.symm
      have hsorted := sortQueue_sorted q
      rw [hq] at hsorted
      have htail : rest.Pairwise (fun a b => keyLe a b = true) :=
        (List.pairwise_cons.mp hsorted).2
      rw [hlen]
      simp only [drainFuel, dequeue_next, hq]
      rw [drainFuel_of_sorted rest.length rest htail, List.take_length]

/-- The drain-order contract of C4. -/
def DrainSpec (q : List QueueEntry) : Prop :=
  (drain q).Perm q ∧
  (drain q).Pairwise
    (fun a b => a.rank ≤ b.rank ∧ (a.rank = b.rank → a.created_time ≤ b.created_time)) ∧
  (∀ e rest, dequeue_next q = some (e, rest) → e ∈ q ∧ ∀ x ∈ q, keyLe e x = true)

/-- C4: the dispatcher's dequeue removes the entry with minimal
(priority rank, creation timestamp) key: every dequeued entry has a key less
than or equal to every entry simultaneously present, so the drain order of a
queue lists lower ranks (HIGH = 1 before MEDIUM = 2 before LOW = 3) first
and, within one rank, ascending creation timestamps (FIFO); the drain visits
every entry exactly once. -/
theorem dequeue_priority_fifo (q : List QueueEntry) : DrainSpec q := by
  have hperm : (drain q).Perm q := by
    rw [drain_eq_sortQueue]; exact sortQueue_perm q
  have hsorted : (drain q).Pairwise (fun a b => keyLe a b = true) := by
    rw [drain_eq_sortQueue]; exact sortQueue_sorted q
  refine ⟨hperm, ?_, ?_⟩
  · refine hsorted.imp ?_
    intro a b hab
    simp only [keyLe, decide_eq_true_eq] at hab
    constructor
    · omega
    · intro _; omega
  · intro e rest hdq
    unfold dequeue_next at hdq
    cases hq : sortQueue q with
    | nil => rw [hq] at hdq; exact Option.noConfusion hdq
    | cons f frest =>
        rw [hq] at hdq
        have hpair := Option.some.inj hdq
        have hf : f = e := congrArg Prod.fst hpair
        have hsq := sortQueue_sorted q
        rw [hq] at hsq
        have hhead : ∀ x ∈ frest, keyLe f x = true := (List.pairwise_cons.mp hsq).1
        have hmem : e ∈ q := by
          rw [← hf]
          exact (sortQueue_perm q).mem_iff.mp (by rw [hq]; simp)
        refine ⟨hmem, ?_⟩
        intro x hx
        have hx₂ : x ∈ f :: frest := by
          rw [← hq]
          exact (sortQueue_perm q).mem_iff.mpr hx
        rcases List.mem_cons.mp hx₂ with rfl | hx₃
        · rw [← hf]
          simp [keyLe]
        · rw [← hf]
          exact hhead x hx₃

/-- C4 witness: on the concrete queue `[HIGH at t=5, LOW at t=0]` the drain
contract holds; in particular the HIGH entry is dequeued first even though
the LOW entry is older. -/
theorem dequeue_priority_fifo_witness :
    DrainSpec [⟨1, 5, 0, 1⟩, ⟨3, 0, 0, 2⟩] ∧
    dequeue_next [⟨1, 5, 0, 1⟩, ⟨3, 0, 0, 2⟩] = some (⟨1, 5, 0, 1⟩, [⟨3, 0, 0, 2⟩]) := by
  have hsorted : List.Pairwise (fun a b => keyLe a b = true)
      [(⟨1, 5, 0, 1⟩ : QueueEntry), ⟨3, 0, 0, 2⟩] := by
    refine List.pairwise_cons.mpr ⟨?_, ?_⟩
    · intro x hx
      rcases List.mem_singleton.mp hx with rfl
      decide
    · exact List.pairwise_singleton _ _
  refine ⟨dequeue_priority_fifo _, ?_⟩
  unfold dequeue_next sortQueue
  rw [List.mergeSort_of_sorted hsorted]

/-- The contract of C10: the entries enqueued for one submission all carry
the submission's priority rank and the submission's single creation
timestamp; and the dispatcher's re-sort is stable, so entries with equal
keys are drained in their original queue order. -/
def StableTieSpec : Prop :=
  (∀ (cs : List (List ℤ)) (bids : List ℕ) (iid t : ℕ) (p : Priority),
    ∀ e ∈ mkEntries (mkBatchInfos cs bids iid t p),
      e.rank = priority_map p ∧ e.created_time = t ∧ e.ingestion_id = iid) ∧
  (∀ (q : List QueueEntry) (a b : QueueEntry),
    a.rank = b.rank → a.created_time = b.created_time →
    List.Sublist [a, b] q → List.Sublist [a, b] (drain q))

theorem mkBatchInfos_fields :
    ∀ (cs : List (List ℤ)) (bids : List ℕ) (iid t : ℕ) (p : Priority),
      ∀ b ∈ mkBatchInfos cs bids iid t p,
        b.status = .yet_to_start ∧ b.ingestion_id = iid ∧
        b.created_time = t ∧ b.priority = p
  | [], _, _, _, _, b, hb => by simp [mkBatchInfos] at hb
  | _ :: _, [], _, _, _, b, hb => by simp [mkBatchInfos] at hb
  | c :: cs, bid :: bs, iid, t, p, b, hb => by
      rcases List.mem_cons.mp hb with rfl | hb₂
      · exact ⟨rfl, rfl, rfl, rfl⟩
      · exact mkBatchInfos_fields cs bs iid t p b hb₂

/-- C10: all work units of one submission are enqueued with the same
priority rank and the same creation timestamp, and since the dispatcher's
re-sort of the queue is stable, entries whose keys tie — in particular the
units of one submission — are drained in their original insertion (chunk)
order. -/
theorem submission_units_fifo_stable : StableTieSpec := by
  constructor
  · intro cs bids iid t p e he
    obtain ⟨b, hb, rfl⟩ := List.mem_map.mp he
    obtain ⟨_, hiid, ht, hp⟩ := mkBatchInfos_fields cs bids iid t p b hb
    exact ⟨by rw [hp], by rw [ht], by rw [hiid]⟩
  · intro q a b hrank htime hsub
    rw [drain_eq_sortQueue]
    have hpair : List.Pairwise (fun x y => keyLe x y = true) [a, b] := by
      refine List.pairwise_cons.mpr ⟨?_, List.pairwise_singleton _ _⟩
      intro y hy
      rcases List.mem_singleton.mp hy with rfl
      simp only [keyLe, decide_eq_true_eq]
      omega
    exact List.sublist_mergeSort keyLe_trans keyLe_total hpair hsub

/-- C10 witness: two equal-key entries (batch ids 1 and 2, the two chunks of
one submission) keep their insertion order in the drain of a queue that also
holds a later higher-rank entry. -/
theorem submission_units_fifo_stable_witness :
    (∀ e ∈ mkEntries (mkBatchInfos [[1, 2, 3], [4]] [1, 2] 0 9 .MEDIUM),
      e.rank = priority_map .MEDIUM ∧ e.created_time = 9 ∧ e.ingestion_id = 0) ∧
    List.Sublist [⟨2, 9, 0, 1⟩, ⟨2, 9, 0, 2⟩]
      (drain [⟨2, 9, 0, 1⟩, ⟨2, 9, 0, 2⟩, ⟨3, 0, 1, 3⟩]) :=
  ⟨fun e he => submission_units_fifo_stable.1 [[1, 2, 3], [4]] [1, 2] 0 9 .MEDIUM e he,
   submission_units_fifo_stable.2 _ _ _ rfl rfl
     (List.cons_sublist_cons.mpr (List.cons_sublist_cons.mpr (List.nil_sublist _)))⟩

/-- The status update loop of `process_batches` (main.py lines 139-142 and
150-153): walk the submission's batch list and set the status of the first
batch with the given `batch_id`, then stop. -/
def markBatch : List BatchInfo → ℕ → BatchStatus → List BatchInfo
  | [], _, _ => []
  | b :: bs, bid, s =>
      if b.batch_id = bid then { b with status := s } :: bs
      else b :: markBatch bs bid s

/-- The store-level effect of the dispatcher's status update: locate the
submission under `ingestion_id` (main.py line 138, a dict access — dict keys
are unique) and update the named batch inside it. -/
def markStore (store : List (ℕ × Submission)) (iid bid : ℕ) (s : BatchStatus) :
    List (ℕ × Submission) :=
  store.map (fun p =>
    if p.1 = iid then (p.1, ⟨p.2.status, markBatch p.2.batches bid s⟩) else p)

/-- Observer: the current state of the work unit with the given `batch_id`,
read from the submission store (the authoritative copy; the queue and the
store share the batch objects in the Python program). -/
def statusOf : List (ℕ × Submission) → ℕ → Option BatchStatus
  | [], _ => none
  | (_, sub) :: rest, bid =>
      match sub.batches.find? (fun b => b.batch_id == bid) with
      | some b => some b.status
      | none => statusOf rest bid

/-- The batch ids of one submission. -/
def batchIds (sub : Submission) : List ℕ := sub.batches.map (·.batch_id)

/-- The ingestion ids keyed in the store. -/
def storeKeys (store : List (ℕ × Submission)) : List ℕ := store.map (·.1)

/-- All batch ids registered anywhere in the store. -/
def storeBatchIds : List (ℕ × Submission) → List ℕ
  | [] => []
  | (_, sub) :: rest => batchIds sub ++ storeBatchIds rest

theorem markBatch_map_batch_id (bs : List BatchInfo) (bid : ℕ) (s : BatchStatus) :
    (markBatch bs bid s).map (·.batch_id) = bs.map (·.batch_id) := by
  induction bs with
  | nil => rfl
  | cons b rest ih =>
      by_cases hb : b.batch_id = bid
      · rw [markBatch, if_pos hb]
        rfl
      · rw [markBatch, if_neg hb]
        simp [ih]

theorem find?_markBatch_ne (bs : List BatchInfo) (bid bid₂ : ℕ) (s : BatchStatus)
    (h : bid₂ ≠ bid) :
    (markBatch bs bid s).find? (fun b => b.batch_id == bid₂) =
      bs.find? (fun b => b.batch_id == bid₂) := by
  induction bs with
  | nil => rfl
  | cons b rest ih =>
      by_cases hb : b.batch_id = bid
      · have hpred : (b.batch_id == bid₂) = false := by
          rw [hb]
          exact beq_eq_false_iff_ne.mpr (Ne.symm h)
        rw [markBatch, if_pos hb,
          List.find?_cons_of_neg _ (by simpa using hpred),
          List.find?_cons_of_neg _ (by simp [hpred])]
      · rw [markBatch, if_neg hb]
        by_cases hp : b.batch_id = bid₂
        · rw [List.find?_cons_of_pos _ (by simp [hp]),
            List.find?_cons_of_pos _ (by simp [hp])]
        · rw [List.find?_cons_of_neg _ (by simp [hp]),
            List.find?_cons_of_neg _ (by simp [hp]), ih]

theorem find?_markBatch_self (bs : List BatchInfo) (bid : ℕ) (s : BatchStatus)
    (h : bid ∈ bs.map (·.batch_id)) :
    ∃ b, (markBatch bs bid s).find? (fun b => b.batch_id == bid) = some b ∧
      b.status = s := by
  induction bs with
  | nil => simp at h
  | cons b rest ih =>
      by_cases hb : b.batch_id = bid
      · refine ⟨{ b with status := s }, ?_, rfl⟩
        rw [markBatch, if_pos hb]
        exact List.find?_cons_of_pos _ (by simp [hb])
      · have h₂ : bid ∈ rest.map (·.batch_id) := by
          rcases List.mem_map.mp h with ⟨x, hx, hxe⟩
          rcases List.mem_cons.mp hx with rfl | hx₂
          · exact absurd hxe hb
          · exact List.mem_map.mpr ⟨x, hx₂, hxe⟩
        obtain ⟨b₂, hfind, hst⟩ := ih h₂
        refine ⟨b₂, ?_, hst⟩
        rw [markBatch, if_neg hb, List.find?_cons_of_neg _ (by simp [hb]), hfind]

theorem find?_batch_eq_none (bs : List BatchInfo) (bid : ℕ)
    (h : bid ∉ bs.map (·.batch_id)) :
    bs.find? (fun b => b.batch_id == bid) = none := by
  rw [List.find?_eq_none]
  intro b hb hpred
  exact h (List.mem_map.mpr ⟨b, hb, beq_iff_eq.mp hpred⟩)

theorem find?_batch_mem (bs : List BatchInfo) (bid : ℕ) (b : BatchInfo)
    (h : bs.find? (fun b => b.batch_id == bid) = some b) :
    b ∈ bs ∧ b.batch_id = bid :=
  ⟨List.mem_of_find?_eq_some h, by
    have hp := List.find?_some h
    exact beq_iff_eq.mp hp⟩

theorem statusOf_markStore_ne (store : List (ℕ × Submission)) (iid bid bid₂ : ℕ)
    (s : BatchStatus) (h : bid₂ ≠ bid) :
    statusOf (markStore store iid bid s) bid₂ = statusOf store bid₂ := by
  induction store with
  | nil => rfl
  | cons p rest ih =>
      obtain ⟨k, sub⟩ := p
      by_cases hk : k = iid
      · simp only [markStore, List.map_cons, if_pos hk]
        rw [statusOf, find?_markBatch_ne sub.batches bid bid₂ s h]
        rw [statusOf]
        cases sub.batches.find? (fun b => b.batch_id == bid₂) with
        | some b => rfl
        | none => exact ih
      · simp only [markStore, List.map_cons, if_neg hk]
        rw [statusOf, statusOf]
        cases sub.batches.find? (fun b => b.batch_id == bid₂) with
        | some b => rfl
        | none => exact ih

theorem mem_storeBatchIds_of_lookup (store : List (ℕ × Submission))
    (iid bid : ℕ) (sub : Submission)
    (hlk : store.lookup iid = some sub) (hmem : bid ∈ batchIds sub) :
    bid ∈ storeBatchIds store := by
  induction store with
  | nil => simp [List.lookup] at hlk
  | cons p rest ih =>
      obtain ⟨k, sub₀⟩ := p
      rw [List.lookup_cons] at hlk
      cases hk : iid == k with
      | true =>
          rw [hk] at hlk
          have : sub₀ = sub := Option.some.inj hlk
          subst this
          rw [storeBatchIds]
          exact List.mem_append.mpr (Or.inl hmem)
      | false =>
          rw [hk] at hlk
          rw [storeBatchIds]
          exact List.mem_append.mpr (Or.inr (ih hlk))

theorem statusOf_markStore_self (store : List (ℕ × Submission))
    (iid bid : ℕ) (s : BatchStatus) (sub : Submission)
    (hnd : (storeBatchIds store).Nodup)
    (hlk : store.lookup iid = some sub) (hmem : bid ∈ batchIds sub) :
    statusOf (markStore store iid bid s) bid = some s := by
  induction store with
  | nil => simp [List.lookup] at hlk
  | cons p rest ih =>
      obtain ⟨k, sub₀⟩ := p
      rw [List.lookup_cons] at hlk
      rw [storeBatchIds] at hnd
      cases hk : iid == k with
      | true =>
          rw [hk] at hlk
          have hsub : sub₀ = sub := Option.some.inj hlk
          subst hsub
          have hkiid : k = iid := (beq_iff_eq.mp hk).symm
          simp only [markStore, List.map_cons, if_pos hkiid]
          obtain ⟨b, hfind, hst⟩ := find?_markBatch_self sub₀.batches bid s hmem
          rw [statusOf, hfind]
          exact congrArg some hst
      | false =>
          rw [hk] at hlk
          have hkiid : ¬(k = iid) := fun hc => by
            rw [hc] at hk
            simp at hk
          simp only [markStore, List.map_cons, if_neg hkiid]
          have hnot : bid ∉ batchIds sub₀ := by
            intro hc
            have hrest : bid ∈ storeBatchIds rest :=
              mem_storeBatchIds_of_lookup rest iid bid sub hlk hmem
            exact (List.nodup_append.mp hnd).2.2 hc hrest
          rw [statusOf, find?_batch_eq_none sub₀.batches bid hnot]
          exact ih (List.nodup_append.mp hnd).2.1 hlk

theorem statusOf_append_some (s₁ s₂ : List (ℕ × Submission)) (bid : ℕ)
    (x : BatchStatus) (h : statusOf s₁ bid = some x) :
    statusOf (s₁ ++ s₂) bid = some x := by
  induction s₁ with
  | nil => simp [statusOf] at h
  | cons p rest ih =>
      obtain ⟨k, sub⟩ := p
      rw [statusOf] at h
      rw [List.cons_append, statusOf]
      cases hf : sub.batches.find? (fun b => b.batch_id == bid) with
      | some b => rw [hf] at h; exact h
      | none => rw [hf] at h; exact ih h

theorem statusOf_append_none (s₁ s₂ : List (ℕ × Submission)) (bid : ℕ)
    (h : statusOf s₁ bid = none) :
    statusOf (s₁ ++ s₂) bid = statusOf s₂ bid := by
  induction s₁ with
  | nil => rfl
  | cons p rest ih =>
      obtain ⟨k, sub⟩ := p
      rw [statusOf] at h
      rw [List.cons_append, statusOf]
      cases hf : sub.batches.find? (fun b => b.batch_id == bid) with
      | some b => rw [hf] at h; exact Option.noConfusion h
      | none => rw [hf] at h; exact ih h

theorem statusOf_eq_none_iff (store : List (ℕ × Submission)) (bid : ℕ) :
    statusOf store bid = none ↔ bid ∉ storeBatchIds store := by
  induction store with
  | nil => simp [statusOf, storeBatchIds]
  | cons p rest ih =>
      obtain ⟨k, sub⟩ := p
      rw [statusOf, storeBatchIds]
      cases hf : sub.batches.find? (fun b => b.batch_id == bid) with
      | some b =>
          simp only [List.mem_append]
          constructor
          · intro h; exact Option.noConfusion h
          · intro h
            exfalso
            obtain ⟨hb, hid⟩ := find?_batch_mem sub.batches bid b hf
            exact h (Or.inl (List.mem_map.mpr ⟨b, hb, hid⟩))
      | none =>
          have hnot : bid ∉ batchIds sub := by
            intro hm
            simp only [batchIds] at hm
            rcases List.mem_map.mp hm with ⟨b, hb, hid⟩
            exact List.find?_eq_none.mp hf b hb (beq_iff_eq.mpr hid)
          simp only [List.mem_append]
          rw [ih]
          constructor
          · intro h hc
            rcases hc with hc | hc
            · exact hnot hc
            · exact h hc
          · intro h hc
            exact h (Or.inr hc)

theorem storeKeys_markStore (store : List (ℕ × Submission)) (iid bid : ℕ)
    (s : BatchStatus) : storeKeys (markStore store iid bid s) = storeKeys store := by
  induction store with
  | nil => rfl
  | cons p rest ih =>
      obtain ⟨k, sub⟩ := p
      by_cases hk : k = iid <;>
        simp only [markStore, List.map_cons, if_pos, if_neg, hk, storeKeys] at ih ⊢ <;>
          simp [ih, storeKeys]

theorem storeBatchIds_markStore (store : List (ℕ × Submission)) (iid bid : ℕ)
    (s : BatchStatus) :
    storeBatchIds (markStore store iid bid s) = storeBatchIds store := by
  induction store with
  | nil => rfl
  | cons p rest ih =>
      obtain ⟨k, sub⟩ := p
      by_cases hk : k = iid
      · simp only [markStore, List.map_cons, if_pos hk]
        rw [storeBatchIds, storeBatchIds]
        have hb : batchIds ⟨sub.status, markBatch sub.batches bid s⟩ = batchIds sub := by
          simp only [batchIds]
          exact markBatch_map_batch_id sub.batches bid s
        rw [hb]
        exact congrArg _ ih
      · simp only [markStore, List.map_cons, if_neg hk]
        rw [storeBatchIds, storeBatchIds]
        exact congrArg _ ih

theorem lookup_markStore_some (store : List (ℕ × Submission)) (iid bid iid₂ : ℕ)
    (s : BatchStatus) (sub : Submission) (h : store.lookup iid₂ = some sub) :
    ∃ sub₂, (markStore store iid bid s).lookup iid₂ = some sub₂ ∧
      batchIds sub₂ = batchIds sub := by
  induction store with
  | nil => simp [List.lookup] at h
  | cons p rest ih =>
      obtain ⟨k, sub₀⟩ := p
      rw [List.lookup_cons] at h
      by_cases hk : k = iid
      · simp only [markStore, List.map_cons, if_pos hk]
        cases hik : iid₂ == k with
        | true =>
            rw [hik] at h
            have : sub₀ = sub := Option.some.inj h
            subst this
            refine ⟨⟨sub₀.status, markBatch sub₀.batches bid s⟩, ?_, ?_⟩
            · rw [List.lookup_cons, hik]
            · simp only [batchIds]
              exact markBatch_map_batch_id sub₀.batches bid s
        | false =>
            rw [hik] at h
            obtain ⟨sub₂, hlk, hbi⟩ := ih h
            refine ⟨sub₂, ?_, hbi⟩
            rw [List.lookup_cons, hik]
            exact hlk
      · simp only [markStore, List.map_cons, if_neg hk]
        cases hik : iid₂ == k with
        | true =>
            rw [hik] at h
            have : sub₀ = sub := Option.some.inj h
            subst this
            refine ⟨sub₀, ?_, rfl⟩
            rw [List.lookup_cons, hik]
        | false =>
            rw [hik] at h
            obtain ⟨sub₂, hlk, hbi⟩ := ih h
            refine ⟨sub₂, ?_, hbi⟩
            rw [List.lookup_cons, hik]
            exact hlk

theorem lookup_append_some (s₁ s₂ : List (ℕ × Submission)) (iid : ℕ)
    (sub : Submission) (h : s₁.lookup iid = some sub) :
    (s₁ ++ s₂).lookup iid = some sub := by
  induction s₁ with
  | nil => simp [List.lookup] at h
  | cons p rest ih =>
      obtain ⟨k, sub₀⟩ := p
      rw [List.lookup_cons] at h
      rw [List.cons_append, List.lookup_cons]
      cases hik : iid == k with
      | true => rw [hik] at h; exact h
      | false => rw [hik] at h; exact ih h

theorem lookup_append_none (s₁ s₂ : List (ℕ × Submission)) (iid : ℕ)
    (h : s₁.lookup iid = none) :
    (s₁ ++ s₂).lookup iid = s₂.lookup iid := by
  induction s₁ with
  | nil => rfl
  | cons p rest ih =>
      obtain ⟨k, sub₀⟩ := p
      rw [List.lookup_cons] at h
      rw [List.cons_append, List.lookup_cons]
      cases hik : iid == k with
      | true => rw [hik] at h; exact Option.noConfusion h
      | false => rw [hik] at h; exact ih h

theorem lookup_none_not_mem_keys (store : List (ℕ × Submission)) (iid : ℕ)
    (h : store.lookup iid = none) : iid ∉ storeKeys store := by
  induction store with
  | nil => simp [storeKeys]
  | cons p rest ih =>
      obtain ⟨k, sub₀⟩ := p
      rw [List.lookup_cons] at h
      cases hik : iid == k with
      | true => rw [hik] at h; exact Option.noConfusion h
      | false =>
          rw [hik] at h
          simp only [storeKeys, List.map_cons, List.mem_cons]
          rintro (rfl | hc)
          · simp at hik
          · exact ih h hc

theorem lookup_single_self (k : ℕ) (sub : Submission) :
    List.lookup k [(k, sub)] = some sub := by
  rw [List.lookup_cons]
  simp

theorem storeBatchIds_append (s₁ s₂ : List (ℕ × Submission)) :
    storeBatchIds (s₁ ++ s₂) = storeBatchIds s₁ ++ storeBatchIds s₂ := by
  induction s₁ with
  | nil => rfl
  | cons p rest ih =>
      obtain ⟨k, sub⟩ := p
      rw [List.cons_append, storeBatchIds, storeBatchIds, ih, List.append_assoc]

theorem mkBatchInfos_ids :
    ∀ (cs : List (List ℤ)) (bids : List ℕ) (iid t : ℕ) (p : Priority),
      cs.length = bids.length →
      (mkBatchInfos cs bids iid t p).map (·.batch_id) = bids
  | [], [], _, _, _, _ => rfl
  | [], _ :: _, _, _, _, h => by simp at h
  | _ :: _, [], _, _, _, h => by simp at h
  | c :: cs, bid :: bs, iid, t, p, h => by
      rw [mkBatchInfos, List.map_cons]
      rw [mkBatchInfos_ids cs bs iid t p (by simpa using h)]

theorem mkEntries_map_batch_id (batches : List BatchInfo) :
    (mkEntries batches).map (·.batch_id) = batches.map (·.batch_id) := by
  simp [mkEntries]

theorem mkEntries_mem (batches : List BatchInfo) (e : QueueEntry)
    (h : e ∈ mkEntries batches) :
    ∃ b ∈ batches, e.ingestion_id = b.ingestion_id ∧ e.batch_id = b.batch_id := by
  obtain ⟨b, hb, rfl⟩ := List.mem_map.mp h
  exact ⟨b, hb, rfl, rfl⟩

theorem statusOf_single (k bid : ℕ) (sub : Submission) (y : BatchStatus)
    (h : statusOf [(k, sub)] bid = some y) : ∃ b ∈ sub.batches, b.status = y := by
  rw [statusOf] at h
  cases hf : sub.batches.find? (fun b => b.batch_id == bid) with
  | some b =>
      rw [hf] at h
      exact ⟨b, (find?_batch_mem sub.batches bid b hf).1, Option.some.inj h⟩
  | none =>
      rw [hf] at h
      exact Option.noConfusion h

theorem statusOf_single_yet (k bid : ℕ) (sub : Submission)
    (hall : ∀ b ∈ sub.batches, b.status = .yet_to_start)
    (hmem : bid ∈ batchIds sub) :
    statusOf [(k, sub)] bid = some .yet_to_start := by
  rw [statusOf]
  cases hf : sub.batches.find? (fun b => b.batch_id == bid) with
  | some b =>
      exact congrArg some (hall b (find?_batch_mem sub.batches bid b hf).1)
  | none =>
      exfalso
      simp only [batchIds] at hmem
      obtain ⟨b, hb, hid⟩ := List.mem_map.mp hmem
      exact List.find?_eq_none.mp hf b hb (beq_iff_eq.mpr hid)

theorem validate_ids_ok_eq (l v : List ℤ) (h : validate_ids l = .ok v) : v = l := by
  unfold validate_ids at h
  by_cases hemp : l.isEmpty
  · rw [if_pos hemp] at h
    exact Except.noConfusion h
  · rw [if_neg hemp] at h
    cases hf : l.find? (fun i => !(decide (1 ≤ i) && decide (i ≤ MAX_ID))) with
    | some j => rw [hf] at h; exact Except.noConfusion h
    | none =>
        rw [hf] at h
        exact (Except.ok.inj h).symm

theorem ingest_ok_inversion (st : SysState) (ids : List ℤ) (p : Priority)
    (iid : ℕ) (bids : List ℕ) (t : ℕ) (st₂ : SysState) (r : ℕ)
    (h : ingest st ids p iid bids t = (st₂, .ok r)) :
    st₂ = ⟨st.ingestion_store ++
        [(iid, ⟨.yet_to_start, mkBatchInfos (makeBatches ids) bids iid t p⟩)],
      st.batch_queue ++ mkEntries (mkBatchInfos (makeBatches ids) bids iid t p)⟩ := by
  unfold ingest at h
  cases hv : validate_ids ids with
  | error e =>
      rw [hv] at h
      have := congrArg Prod.snd h
      exact Except.noConfusion this
  | ok v =>
      have hveq : v = ids := validate_ids_ok_eq ids v hv
      subst hveq
      rw [hv] at h
      exact (congrArg Prod.fst h).symm

theorem dequeue_next_some_perm (q : List QueueEntry) (e : QueueEntry)
    (rest : List QueueEntry) (h : dequeue_next q = some (e, rest)) :
    (e :: rest).Perm q := by
  unfold dequeue_next at h
  cases hq : sortQueue q with
  | nil => rw [hq] at h; exact Option.noConfusion h
  | cons f fr =>
      rw [hq] at h
      have hpair := Option.some.inj h
      have hf : f = e := congrArg Prod.fst hpair
      have hfr : fr = rest := congrArg Prod.snd hpair
      rw [← hf, ← hfr, ← hq]
      exact sortQueue_perm q

/-- Dispatcher control position: `idle` at the top of the `while` loop, or
`processing iid bid` between the dequeue-and-mark block and the end of the
downstream call (the `await asyncio.sleep(PROCESS_DELAY)` suspension point,
main.py line 145). -/
inductive DState where
  | idle
  | processing (iid bid : ℕ)
deriving DecidableEq

/-- Whole-system state: the shared stores plus the dispatcher position. -/
structure Sys where
  st : SysState
  disp : DState
deriving DecidableEq

/-- Freshness of the `uuid.uuid4()`-generated identifiers supplied to one
`ingest` call: the ingestion id is new to the store, and the batch ids are
distinct and new to the store (spec invariant I2: unit identifiers are never
reused). -/
def FreshFor (st : SysState) (iid : ℕ) (bids : List ℕ) : Prop :=
  st.ingestion_store.lookup iid = none ∧
  bids.Nodup ∧
  ∀ b ∈ bids, b ∉ storeBatchIds st.ingestion_store

/-- The atomic steps of the program. Each constructor is one block of Python
code with no internal `await` (the single-threaded event loop cannot preempt
it): a successful `ingest` call; the dispatcher's dequeue-and-mark-triggered
block (main.py lines 127-142); the mark-completed block after the downstream
sleep (lines 149-153); and the exception path of the `try` (lines 157-159),
which mutates nothing and returns to the top of the loop. -/
inductive Step : Sys → Sys → Prop where
  | ingestOk {s : Sys} (ids : List ℤ) (p : Priority) (iid : ℕ) (bids : List ℕ)
      (t : ℕ) (st₂ : SysState)
      (hlen : bids.length = (makeBatches ids).length)
      (hfresh : FreshFor s.st iid bids)
      (hok : ingest s.st ids p iid bids t = (st₂, Except.ok iid)) :
      Step s ⟨st₂, s.disp⟩
  | dispatch {s : Sys} (e : QueueEntry) (rest : List QueueEntry)
      (hidle : s.disp = DState.idle)
      (hdq : dequeue_next s.st.batch_queue = some (e, rest)) :
      Step s ⟨⟨markStore s.st.ingestion_store e.ingestion_id e.batch_id .triggered, rest⟩,
        DState.processing e.ingestion_id e.batch_id⟩
  | complete {s : Sys} (iid bid : ℕ)
      (hp : s.disp = DState.processing iid bid) :
      Step s ⟨⟨markStore s.st.ingestion_store iid bid .completed, s.st.batch_queue⟩,
        DState.idle⟩
  | failure {s : Sys} (iid bid : ℕ)
      (hp : s.disp = DState.processing iid bid) :
      Step s ⟨s.st, DState.idle⟩

/-- The boot state: empty store, empty queue, dispatcher idle. -/
def initState : Sys := ⟨⟨[], []⟩, DState.idle⟩

/-- System states reachable from boot by program steps. -/
def Reachable (s : Sys) : Prop := Relation.ReflTransGen Step initState s

/-- The inductive invariant of the system: unique keys and batch ids, queue
entries reference pending batches of their submission, queued batch ids are
distinct, and the in-flight unit (if any) is a triggered batch of its
submission that is no longer queued. -/
structure Inv (s : Sys) : Prop where
  keys_nodup : (storeKeys s.st.ingestion_store).Nodup
  bids_nodup : (storeBatchIds s.st.ingestion_store).Nodup
  queue_owned : ∀ e ∈ s.st.batch_queue,
    ∃ sub, s.st.ingestion_store.lookup e.ingestion_id = some sub ∧
      e.batch_id ∈ batchIds sub
  queue_pending : ∀ e ∈ s.st.batch_queue,
    statusOf s.st.ingestion_store e.batch_id = some .yet_to_start
  queue_bids_nodup : (s.st.batch_queue.map (·.batch_id)).Nodup
  inflight_owned : ∀ iid bid, s.disp = DState.processing iid bid →
    ∃ sub, s.st.ingestion_store.lookup iid = some sub ∧ bid ∈ batchIds sub
  inflight_triggered : ∀ iid bid, s.disp = DState.processing iid bid →
    statusOf s.st.ingestion_store bid = some .triggered
  inflight_not_queued : ∀ iid bid, s.disp = DState.processing iid bid →
    bid ∉ s.st.batch_queue.map (·.batch_id)

theorem inv_init : Inv initState := by
  refine ⟨?_, ?_, ?_, ?_, ?_, ?_, ?_, ?_⟩ <;>
    simp [initState, storeKeys, storeBatchIds]

theorem inv_step (s s₂ : Sys) (hinv : Inv s) (hs : Step s s₂) : Inv s₂ := by
  cases hs with
  | ingestOk ids p iid bids t st₂ hlen hfresh hok =>
      obtain ⟨hlk, hbnd, hbfresh⟩ := hfresh
      have hst := ingest_ok_inversion s.st ids p iid bids t st₂ iid hok
      subst hst
      have hb2 : (mkBatchInfos (makeBatches ids) bids iid t p).map (·.batch_id) = bids :=
        mkBatchInfos_ids _ _ _ _ _ hlen.symm
      have hbatchIds :
          batchIds ⟨.yet_to_start, mkBatchInfos (makeBatches ids) bids iid t p⟩ = bids := hb2
      have hallyet : ∀ b ∈ mkBatchInfos (makeBatches ids) bids iid t p,
          b.status = .yet_to_start :=
        fun b hb => (mkBatchInfos_fields _ _ _ _ _ b hb).1
      have hnewlookup :
          (s.st.ingestion_store ++
            [(iid, (⟨.yet_to_start, mkBatchInfos (makeBatches ids) bids iid t p⟩ : Submission))]).lookup iid =
            some (⟨.yet_to_start, mkBatchInfos (makeBatches ids) bids iid t p⟩ : Submission) := by
        rw [lookup_append_none _ _ _ hlk]
        exact lookup_single_self iid _
      have hqsub : ∀ x ∈ s.st.batch_queue.map (·.batch_id),
          x ∈ storeBatchIds s.st.ingestion_store := by
        intro x hx
        obtain ⟨e, he, rfl⟩ := List.mem_map.mp hx
        obtain ⟨sub₀, hlk₀, hmem₀⟩ := hinv.queue_owned e he
        exact mem_storeBatchIds_of_lookup _ _ _ _ hlk₀ hmem₀
      have hsingle :
          storeBatchIds [(iid, (⟨.yet_to_start, mkBatchInfos (makeBatches ids) bids iid t p⟩ : Submission))] = bids := by
        rw [storeBatchIds, storeBatchIds, List.append_nil]
        exact hbatchIds
      refine ⟨?_, ?_, ?_, ?_, ?_, ?_, ?_, ?_⟩
      · have hkeys : storeKeys (s.st.ingestion_store ++
            [(iid, ⟨.yet_to_start, mkBatchInfos (makeBatches ids) bids iid t p⟩)]) =
            storeKeys s.st.ingestion_store ++ [iid] := by
          simp [storeKeys]
        rw [hkeys, List.nodup_append]
        refine ⟨hinv.keys_nodup, List.nodup_singleton iid, ?_⟩
        intro x hx hx₂
        rcases List.mem_singleton.mp hx₂ with rfl
        exact lookup_none_not_mem_keys _ _ hlk hx
      · rw [storeBatchIds_append, hsingle, List.nodup_append]
        exact ⟨hinv.bids_nodup, hbnd, fun x hx hx₂ => hbfresh x hx₂ hx⟩
      · intro e he
        rcases List.mem_append.mp he with he | he
        · obtain ⟨sub₀, hlk₀, hm₀⟩ := hinv.queue_owned e he
          exact ⟨sub₀, lookup_append_some _ _ _ _ hlk₀, hm₀⟩
        · obtain ⟨b, hb, hiid, hbid⟩ := mkEntries_mem _ e he
          refine ⟨⟨.yet_to_start, mkBatchInfos (makeBatches ids) bids iid t p⟩, ?_, ?_⟩
          · rw [hiid, (mkBatchInfos_fields _ _ _ _ _ b hb).2.1]
            exact hnewlookup
          · rw [hbid]
            exact List.mem_map.mpr ⟨b, hb, rfl⟩
      · intro e he
        rcases List.mem_append.mp he with he | he
        · exact statusOf_append_some _ _ _ _ (hinv.queue_pending e he)
        · obtain ⟨b, hb, hiid, hbid⟩ := mkEntries_mem _ e he
          have hmemb : e.batch_id ∈
              batchIds ⟨.yet_to_start, mkBatchInfos (makeBatches ids) bids iid t p⟩ := by
            rw [hbid]
            exact List.mem_map.mpr ⟨b, hb, rfl⟩
          have hnone : statusOf s.st.ingestion_store e.batch_id = none := by
            rw [statusOf_eq_none_iff]
            intro hc
            refine hbfresh e.batch_id ?_ hc
            rw [← hbatchIds]
            exact hmemb
          rw [statusOf_append_none _ _ _ hnone]
          exact statusOf_single_yet iid e.batch_id _ hallyet hmemb
      · rw [List.map_append, mkEntries_map_batch_id, hb2, List.nodup_append]
        refine ⟨hinv.queue_bids_nodup, hbnd, ?_⟩
        intro x hx hx₂
        exact hbfresh x hx₂ (hqsub x hx)
      · intro iid₀ bid₀ hp
        obtain ⟨sub₀, hlk₀, hm₀⟩ := hinv.inflight_owned iid₀ bid₀ hp
        exact ⟨sub₀, lookup_append_some _ _ _ _ hlk₀, hm₀⟩
      · intro iid₀ bid₀ hp
        exact statusOf_append_some _ _ _ _ (hinv.inflight_triggered iid₀ bid₀ hp)
      · intro iid₀ bid₀ hp hc
        rw [List.map_append, mkEntries_map_batch_id, hb2] at hc
        rcases List.mem_append.mp hc with hc | hc
        · exact hinv.inflight_not_queued iid₀ bid₀ hp hc
        · obtain ⟨sub₀, hlk₀, hm₀⟩ := hinv.inflight_owned iid₀ bid₀ hp
          exact hbfresh bid₀ hc (mem_storeBatchIds_of_lookup _ _ _ _ hlk₀ hm₀)
  | dispatch e rest hidle hdq =>
      have hperm := dequeue_next_some_perm _ _ _ hdq
      have hmem_e : e ∈ s.st.batch_queue :=
        hperm.mem_iff.mp (List.mem_cons_self e rest)
      have hrest_sub : ∀ x ∈ rest, x ∈ s.st.batch_queue :=
        fun x hx => hperm.mem_iff.mp (List.mem_cons_of_mem e hx)
      have hmap_perm : ((e :: rest).map (·.batch_id)).Perm
          (s.st.batch_queue.map (·.batch_id)) := hperm.map _
      have hnodup₂ : (e.batch_id :: rest.map (·.batch_id)).Nodup := by
        have := hmap_perm.nodup_iff.mpr hinv.queue_bids_nodup
        simpa using this
      have henot : e.batch_id ∉ rest.map (·.batch_id) :=
        (List.nodup_cons.mp hnodup₂).1
      have hrest_nodup : (rest.map (·.batch_id)).Nodup :=
        (List.nodup_cons.mp hnodup₂).2
      obtain ⟨sube, hlke, hme⟩ := hinv.queue_owned e hmem_e
      refine ⟨?_, ?_, ?_, ?_, ?_, ?_, ?_, ?_⟩
      · rw [storeKeys_markStore]
        exact hinv.keys_nodup
      · rw [storeBatchIds_markStore]
        exact hinv.bids_nodup
      · intro x hx
        obtain ⟨sub₀, hlk₀, hm₀⟩ := hinv.queue_owned x (hrest_sub x hx)
        obtain ⟨sub₂, hlk₂, hbi₂⟩ := lookup_markStore_some _ _ _ _ _ _ hlk₀
        exact ⟨sub₂, hlk₂, by rw [hbi₂]; exact hm₀⟩
      · intro x hx
        have hxne : x.batch_id ≠ e.batch_id := by
          intro hc
          exact henot (hc ▸ List.mem_map.mpr ⟨x, hx, rfl⟩)
        rw [statusOf_markStore_ne _ _ _ _ _ hxne]
        exact hinv.queue_pending x (hrest_sub x hx)
      · exact hrest_nodup
      · intro iid₀ bid₀ hp
        injection hp with h1 h2
        subst h1
        subst h2
        obtain ⟨sub₂, hlk₂, hbi₂⟩ := lookup_markStore_some _ _ _ _ _ _ hlke
        exact ⟨sub₂, hlk₂, by rw [hbi₂]; exact hme⟩
      · intro iid₀ bid₀ hp
        injection hp with h1 h2
        subst h1
        subst h2
        exact statusOf_markStore_self _ _ _ _ _ hinv.bids_nodup hlke hme
      · intro iid₀ bid₀ hp
        injection hp with h1 h2
        subst h1
        subst h2
        exact henot
  | complete iid₀ bid₀ hp =>
      obtain ⟨subi, hlki, hmi⟩ := hinv.inflight_owned iid₀ bid₀ hp
      refine ⟨?_, ?_, ?_, ?_, ?_, ?_, ?_, ?_⟩
      · rw [storeKeys_markStore]
        exact hinv.keys_nodup
      · rw [storeBatchIds_markStore]
        exact hinv.bids_nodup
      · intro x hx
        obtain ⟨sub₀, hlk₀, hm₀⟩ := hinv.queue_owned x hx
        obtain ⟨sub₂, hlk₂, hbi₂⟩ := lookup_markStore_some _ _ _ _ _ _ hlk₀
        exact ⟨sub₂, hlk₂, by rw [hbi₂]; exact hm₀⟩
      · intro x hx
        have hxne : x.batch_id ≠ bid₀ := by
          intro hc
          exact hinv.inflight_not_queued iid₀ bid₀ hp
            (hc ▸ List.mem_map.mpr ⟨x, hx, rfl⟩)
        rw [statusOf_markStore_ne _ _ _ _ _ hxne]
        exact hinv.queue_pending x hx
      · exact hinv.queue_bids_nodup
      · intro iid₁ bid₁ hp₁
        exact DState.noConfusion hp₁
      · intro iid₁ bid₁ hp₁
        exact DState.noConfusion hp₁
      · intro iid₁ bid₁ hp₁
        exact DState.noConfusion hp₁
  | failure iid₀ bid₀ hp =>
      refine ⟨hinv.keys_nodup, hinv.bids_nodup, hinv.queue_owned,
        hinv.queue_pending, hinv.queue_bids_nodup, ?_, ?_, ?_⟩
      · intro iid₁ bid₁ hp₁
        exact DState.noConfusion hp₁
      · intro iid₁ bid₁ hp₁
        exact DState.noConfusion hp₁
      · intro iid₁ bid₁ hp₁
        exact DState.noConfusion hp₁

theorem reachable_inv (s : Sys) (hr : Reachable s) : Inv s := by
  unfold Reachable at hr
  induction hr with
  | refl => exact inv_init
  | tail _ hstep ih => exact inv_step _ _ ih hstep

/-- The per-step state-change discipline of a single work unit: a unit is
created Pending, and otherwise either keeps its state or advances by exactly
one transition of Pending → Dispatched → Completed. -/
def stepOK : Option BatchStatus → Option BatchStatus → Prop
  | none, none => True
  | none, some s => s = .yet_to_start
  | some _, none => False
  | some s, some s₂ =>
      s₂ = s ∨ (s = .yet_to_start ∧ s₂ = .triggered) ∨
        (s = .triggered ∧ s₂ = .completed)

theorem stepOK_refl : ∀ o : Option BatchStatus, stepOK o o
  | none => trivial
  | some _ => Or.inl rfl

/-- Every unit's state obeys `stepOK` across the step from `s` to `s₂`. -/
def MonotonicStep (s s₂ : Sys) : Prop :=
  ∀ bid, stepOK (statusOf s.st.ingestion_store bid)
    (statusOf s₂.st.ingestion_store bid)

/-- C5: along every step of the program from a reachable state, every work
unit's state either stays put or advances by exactly one transition of
Pending → Dispatched → Completed; no operation moves a unit's state
backwards or skips a state. -/
theorem unit_state_monotonic (s s₂ : Sys) (hr : Reachable s) (hs : Step s s₂) :
    MonotonicStep s s₂ := by
  have hinv := reachable_inv s hr
  intro bid
  cases hs with
  | ingestOk ids p iid bids t st₂ hlen hfresh hok =>
      have hst := ingest_ok_inversion s.st ids p iid bids t st₂ iid hok
      subst hst
      cases h₀ : statusOf s.st.ingestion_store bid with
      | some x =>
          rw [statusOf_append_some _ _ _ _ h₀]
          exact Or.inl rfl
      | none =>
          rw [statusOf_append_none _ _ _ h₀]
          cases h₁ : statusOf
              [(iid, (⟨.yet_to_start, mkBatchInfos (makeBatches ids) bids iid t p⟩ : Submission))]
              bid with
          | none => trivial
          | some y =>
              obtain ⟨b, hb, hst⟩ := statusOf_single _ _ _ _ h₁
              have : y = .yet_to_start := by
                rw [← hst]
                exact (mkBatchInfos_fields _ _ _ _ _ b hb).1
              exact this
  | dispatch e rest hidle hdq =>
      have hmem_e : e ∈ s.st.batch_queue :=
        (dequeue_next_some_perm _ _ _ hdq).mem_iff.mp (List.mem_cons_self e rest)
      obtain ⟨sube, hlke, hme⟩ := hinv.queue_owned e hmem_e
      by_cases hb : bid = e.batch_id
      · subst hb
        rw [hinv.queue_pending e hmem_e,
          statusOf_markStore_self _ _ _ _ _ hinv.bids_nodup hlke hme]
        exact Or.inr (Or.inl ⟨rfl, rfl⟩)
      · rw [statusOf_markStore_ne _ _ _ _ _ hb]
        exact stepOK_refl _
  | complete iid₀ bid₀ hp =>
      obtain ⟨subi, hlki, hmi⟩ := hinv.inflight_owned iid₀ bid₀ hp
      by_cases hb : bid = bid₀
      · subst hb
        rw [hinv.inflight_triggered iid₀ bid hp,
          statusOf_markStore_self _ _ _ _ _ hinv.bids_nodup hlki hmi]
        exact Or.inr (Or.inr ⟨rfl, rfl⟩)
      · rw [statusOf_markStore_ne _ _ _ _ _ hb]
        exact stepOK_refl _
  | failure iid₀ bid₀ hp =>
      exact stepOK_refl _

/-- C5 witness: the step from the boot state that ingests `[1]` at HIGH
priority creates unit 10 as Pending; the state-change discipline holds at
that concrete step. -/
theorem unit_state_monotonic_witness :
    MonotonicStep initState
      ⟨(ingest initState.st [1] Priority.HIGH 0 [10] 0).1, DState.idle⟩ :=
  unit_state_monotonic initState _ Relation.ReflTransGen.refl
    (Step.ingestOk [1] Priority.HIGH 0 [10] 0 _ (by decide)
      ⟨rfl, by decide, by decide⟩ rfl)

/-- The failure-containment contract of C8 for a state whose dispatcher is
processing unit `bid`: the exception path is a program step back to an idle
dispatcher that leaves the whole shared state unchanged; the failing unit
stays Dispatched (`triggered`), not Completed; status queries still answer
normally from the unchanged store; and when work is queued the dispatcher
can take its next dispatch step (the loop does not terminate). -/
def FailureContained (s : Sys) (bid : ℕ) : Prop :=
  Step s ⟨s.st, DState.idle⟩ ∧
  statusOf s.st.ingestion_store bid = some .triggered ∧
  (∀ q sub, s.st.ingestion_store.lookup q = some sub →
    (status s.st q).2 = .ok (statusOfSubmission q sub)) ∧
  (s.st.batch_queue ≠ [] → ∃ s₂, Step ⟨s.st, DState.idle⟩ s₂)

/-- C8: if the downstream processing of a unit fails (an exception inside
the dispatch cycle), the dispatcher resumes its loop without terminating and
without mutating the stores, the failing unit's state is not advanced to
Completed (it remains Dispatched), and the failure is never surfaced to a
caller of submit or status. -/
theorem downstream_failure_contained (s : Sys) (iid bid : ℕ)
    (hr : Reachable s) (hp : s.disp = DState.processing iid bid) :
    FailureContained s bid := by
  have hinv := reachable_inv s hr
  refine ⟨Step.failure iid bid hp, hinv.inflight_triggered iid bid hp, ?_, ?_⟩
  · intro q sub h
    unfold status
    rw [h]
  · intro hne
    cases hq : sortQueue s.st.batch_queue with
    | nil =>
        exfalso
        have hp₂ : s.st.batch_queue.Perm [] := by
          rw [← hq]
          exact (sortQueue_perm _).symm
        exact hne (List.Perm.eq_nil hp₂)
    | cons e rest =>
        refine ⟨_, Step.dispatch e rest rfl ?_⟩
        unfold dequeue_next
        rw [hq]

/-- C8 witness: from boot, ingest `[1]` (unit 10), dispatch it, and let the
downstream call fail: the failure-containment contract holds in that
concrete processing state. -/
theorem downstream_failure_contained_witness :
    FailureContained
      ⟨⟨markStore (ingest initState.st [1] Priority.HIGH 0 [10] 0).1.ingestion_store 0 10
          .triggered, []⟩,
        DState.processing 0 10⟩ 10 := by
  have hq1 : sortQueue [(⟨1, 0, 0, 10⟩ : QueueEntry)] = [⟨1, 0, 0, 10⟩] :=
    List.mergeSort_singleton _
  have hdq : dequeue_next
      (ingest initState.st [1] Priority.HIGH 0 [10] 0).1.batch_queue =
      some (⟨1, 0, 0, 10⟩, []) := by
    show dequeue_next [(⟨1, 0, 0, 10⟩ : QueueEntry)] = some (⟨1, 0, 0, 10⟩, [])
    unfold dequeue_next
    rw [hq1]
  have step1 : Step initState ⟨(ingest initState.st [1] Priority.HIGH 0 [10] 0).1, DState.idle⟩ :=
    Step.ingestOk [1] Priority.HIGH 0 [10] 0 _ (by decide)
      ⟨rfl, by decide, by decide⟩ rfl
  have step2 : Step ⟨(ingest initState.st [1] Priority.HIGH 0 [10] 0).1, DState.idle⟩
      ⟨⟨markStore (ingest initState.st [1] Priority.HIGH 0 [10] 0).1.ingestion_store 0 10
          .triggered, []⟩,
        DState.processing 0 10⟩ :=
    Step.dispatch ⟨1, 0, 0, 10⟩ [] rfl hdq
  exact downstream_failure_contained _ 0 10
    (Relation.ReflTransGen.tail (Relation.ReflTransGen.tail Relation.ReflTransGen.refl step1)
      step2)
    rfl

end LoopAI
